import Mathlib

/-!
A shallow embedding of the `xee-format` integer-picture formatter
(`src/format_integer.rs` and `src/digit.rs`) together with theorems checking
the repository's specification against the code.

Conventions of the embedding:
* Rust `char` becomes Lean `Char`; Rust strings become Lean `String` /
  `List Char`.
* The arbitrary-precision integer (`ibig::IBig`) becomes `Int`; its decimal
  rendering (`IBig::to_string`), an external collaborator of the core, is
  modelled by `toDecimalChars` below.
* The Unicode character-property database consulted by `src/digit.rs` (the
  `icu` crate) is an external collaborator; it is modelled by a finite table
  of decimal-digit ranges and letter ranges sufficient for the characters the
  specification mentions (see `decimalRanges`, `generalCategory`).
* Rust iterators become explicit state machines (`RegularIterator`,
  `SignSource`) with a step function, and the unbounded output-generation
  loop of `Picture::format` is run with fuel that strictly exceeds the number
  of steps any classified pattern can take (proved below).
-/

/-- Modelled from the spec: the Unicode general-category classes that the
digit classifier distinguishes.  Only the classes named by
`is_group_separator` in `src/digit.rs` are represented; every other Unicode
category is collapsed into `OtherCategory`, which the separator test treats
uniformly. -/
inductive GeneralCategory where
  | DecimalNumber
  | LetterNumber
  | OtherNumber
  | UppercaseLetter
  | LowercaseLetter
  | TitlecaseLetter
  | ModifierLetter
  | OtherLetter
  | OtherCategory
deriving DecidableEq

/-- Modelled from the spec: the Unicode `Decimal Number` code-point ranges
enumerated by `icu::properties` (an external collaborator of the core).  Each
range is a contiguous block of ten digits `0..9`; the table lists the blocks
needed by the claims (ASCII, Arabic-Indic, Extended Arabic-Indic, NKo,
Devanagari, Bengali, Thai), as inclusive `(start, stop)` code-point pairs. -/
def decimalRanges : List (Nat × Nat) :=
  [(0x30, 0x39), (0x660, 0x669), (0x6F0, 0x6F9), (0x7C0, 0x7C9),
   (0x966, 0x96F), (0x9E6, 0x9EF), (0xE50, 0xE59)]

/-- Modelled from the spec: the general-category lookup of the Unicode
database (`icu::properties::maps::general_category`), restricted to the
ranges in the table above plus the ASCII letters; all remaining characters
fall into `OtherCategory` (punctuation, symbols, spaces, ...). -/
def generalCategory (c : Char) : GeneralCategory :=
  let n := c.toNat
  if decimalRanges.any (fun r => r.1 ≤ n && n ≤ r.2) then .DecimalNumber
  else if 0x41 ≤ n && n ≤ 0x5A then .UppercaseLetter
  else if 0x61 ≤ n && n ≤ 0x7A then .LowercaseLetter
  else .OtherCategory

/-- `is_group_separator` from `src/digit.rs`: a character may serve as a
group separator iff its general category is none of Nd, Nl, No, Lu, Ll, Lt,
Lm, Lo. -/
def is_group_separator (c : Char) : Bool :=
  !(match generalCategory c with
    | .DecimalNumber | .LetterNumber | .OtherNumber
    | .UppercaseLetter | .LowercaseLetter | .TitlecaseLetter
    | .ModifierLetter | .OtherLetter => true
    | .OtherCategory => false)

/-- `AsciiDigit` from `src/digit.rs`: a character expected to be one of
`'0'`-`'9'` (the Rust constructor only `debug_assert!`s this; no proof is
carried). -/
structure AsciiDigit where
  c : Char
deriving DecidableEq

/-- `AsciiDigit::new`. -/
def AsciiDigit.new (c : Char) : AsciiDigit := ⟨c⟩

/-- `DigitFamily` from `src/digit.rs`: a script's decimal-digit family,
identified by its zero character. -/
structure DigitFamily where
  zero : Char
deriving DecidableEq

/-- `DigitFamily::new`: find the decimal range containing `c` and compute the
family zero as `range.start + (c - range.start) / 10`. -/
def DigitFamily.new (c : Char) : Option DigitFamily :=
  (decimalRanges.find? (fun r => r.1 ≤ c.toNat && c.toNat ≤ r.2)).map
    (fun r => DigitFamily.mk (Char.ofNat ((c.toNat - r.1) / 10 + r.1)))

/-- `DigitFamily::digit`: transliterate an ASCII digit into this family. -/
def DigitFamily.digit (f : DigitFamily) (d : AsciiDigit) : Char :=
  Char.ofNat (d.c.toNat - '0'.toNat + f.zero.toNat)

/-- `Sign` from `src/format_integer.rs`. -/
inductive Sign where
  | OptionalDigit
  | MandatoryDigit
  | GroupSeparator (c : Char)
deriving DecidableEq

/-- `Error` from `src/format_integer.rs`. -/
inductive Error where
  | InvalidPictureString
deriving DecidableEq

/-- `NonRegular` from `src/format_integer.rs`. -/
structure NonRegular where
  signs : List Sign
  mandatory_digit_max : Nat
  digit_family : Option DigitFamily
deriving DecidableEq

/-- `NonRegular::new`: the mandatory maximum is the number of
`MandatoryDigit` signs in the list. -/
def NonRegular.new (signs : List Sign) (digit_family : Option DigitFamily) :
    NonRegular where
  signs := signs
  mandatory_digit_max :=
    (signs.filter (fun s => match s with
      | .MandatoryDigit => true
      | _ => false)).length
  digit_family := digit_family

/-- `Regular` from `src/format_integer.rs`. -/
structure Regular where
  group_separator : Char
  count : Nat
  mandatory_digit_max : Nat
  digit_family : Option DigitFamily
deriving DecidableEq

/-- `RegularIterator` from `src/format_integer.rs`. -/
structure RegularIterator where
  position : Nat
  group_separator : Char
  grouping_size : Nat
deriving DecidableEq

/-- `RegularIterator::new`. -/
def RegularIterator.new (group_separator : Char) (grouping_size : Nat) :
    RegularIterator :=
  ⟨0, group_separator, grouping_size⟩

/-- One step of `<RegularIterator as Iterator>::next` (the Rust iterator
never returns `None`, so the step yields a sign and the successor state). -/
def RegularIterator.next (it : RegularIterator) : Sign × RegularIterator :=
  if it.position < it.grouping_size then
    (.MandatoryDigit, { it with position := it.position + 1 })
  else
    (.GroupSeparator it.group_separator, { it with position := 0 })

/-- `Pattern` from `src/format_integer.rs` (constructors `nonRegular` and
`regular` model `Pattern::NonRegular` and `Pattern::Regular`; lowercase to
keep the payload type names visible inside the `Pattern` namespace). -/
inductive Pattern where
  | nonRegular (p : NonRegular)
  | regular (p : Regular)
deriving DecidableEq

/-- The per-character loop of `Pattern::parse`, with the two pieces of
mutable scan state (`mandatory_seen`, `digit_family`) made explicit. -/
def Pattern.parse_go : List Char → Bool → Option DigitFamily →
    Except Error (List Sign × Option DigitFamily)
  | [], _mandatory_seen, digit_family => .ok ([], digit_family)
  | c :: rest, mandatory_seen, digit_family =>
    if c = '#' then
      -- optional digit
      if !mandatory_seen then
        match Pattern.parse_go rest mandatory_seen digit_family with
        | .ok (signs, df) => .ok (.OptionalDigit :: signs, df)
        | .error e => .error e
      else .error .InvalidPictureString
    else if is_group_separator c then
      -- group separator
      match Pattern.parse_go rest mandatory_seen digit_family with
      | .ok (signs, df) => .ok (.GroupSeparator c :: signs, df)
      | .error e => .error e
    else
      -- mandatory digit
      match DigitFamily.new c with
      | none => .error .InvalidPictureString
      | some found_digit_family =>
        match digit_family with
        | some df0 =>
          if found_digit_family ≠ df0 then .error .InvalidPictureString
          else
            match Pattern.parse_go rest true (some df0) with
            | .ok (signs, df) => .ok (.MandatoryDigit :: signs, df)
            | .error e => .error e
        | none =>
          match Pattern.parse_go rest true (some found_digit_family) with
          | .ok (signs, df) => .ok (.MandatoryDigit :: signs, df)
          | .error e => .error e

/-- `Pattern::parse`. -/
def Pattern.parse (pattern : String) :
    Except Error (List Sign × Option DigitFamily) :=
  Pattern.parse_go pattern.data false none

/-- The scan loop of `Pattern::validate`, with the peekable iterator made
explicit as the remaining list (`rest.head?` is the peek). -/
def Pattern.validate_go : List Sign → Except Error Unit
  | [] => .ok ()
  | .OptionalDigit :: rest =>
    match rest.head? with
    | some .OptionalDigit | some (.GroupSeparator _) | some .MandatoryDigit =>
      Pattern.validate_go rest
    | none => .error .InvalidPictureString
  | .GroupSeparator _ :: rest =>
    match rest.head? with
    | some (.GroupSeparator _) => .error .InvalidPictureString
    | none => .error .InvalidPictureString
    | _ => Pattern.validate_go rest
  | .MandatoryDigit :: rest => Pattern.validate_go rest

/-- `Pattern::validate`: reject a leading separator, then scan. -/
def Pattern.validate (pattern : List Sign) : Except Error Unit :=
  match pattern.head? with
  | some (.GroupSeparator _) => .error .InvalidPictureString
  | _ => Pattern.validate_go pattern

/-- The loop of `Pattern::create_regular`, scanning the reversed sign list
with the four pieces of mutable state (`last_separator`, `last_count`,
`count`, `mandatory_digit_max_count`) made explicit. -/
def Pattern.create_regular_go (df : Option DigitFamily) :
    List Sign → Option Char → Option Nat → Nat → Nat → Option Regular
  | [], last_separator, last_count, _count, mmax =>
    match last_separator, last_count with
    | some c, some k => some ⟨c, k, mmax, df⟩
    | _, _ => none
  | .GroupSeparator c :: rest, last_separator, last_count, count, mmax =>
    -- first the separator agreement check (recording it when absent), then
    -- the group-length agreement check, as two sequenced fallible steps
    match (match last_separator with
           | some c0 => if c0 ≠ c then none else some c0
           | none => some c : Option Char) with
    | none => none
    | some c1 =>
      match (match last_count with
             | some k => if count ≠ k then none else some k
             | none => some count : Option Nat) with
      | none => none
      | some k1 => Pattern.create_regular_go df rest (some c1) (some k1) 0 mmax
  | .MandatoryDigit :: rest, last_separator, last_count, count, mmax =>
    Pattern.create_regular_go df rest last_separator last_count (count + 1)
      (mmax + 1)
  | .OptionalDigit :: rest, last_separator, last_count, count, mmax =>
    Pattern.create_regular_go df rest last_separator last_count (count + 1)
      mmax

/-- `Pattern::create_regular`: the Rust loop runs over `signs.iter().rev()`.
(The Rust code ends with `last_count.unwrap()`; `last_count` is always set
whenever `last_separator` is, because both are recorded at the first
separator of the scan, so the `(some, none)` fallthrough to `none` below is
unreachable.) -/
def Pattern.create_regular (signs : List Sign) (df : Option DigitFamily) :
    Option Regular :=
  Pattern.create_regular_go df signs.reverse none none 0 0

/-- `Pattern::new`: parse, validate, classify. -/
def Pattern.new (pattern : String) : Except Error Pattern :=
  match Pattern.parse pattern with
  | .error e => .error e
  | .ok (signs, digit_family) =>
    match Pattern.validate signs with
    | .error e => .error e
    | .ok () =>
      match Pattern.create_regular signs digit_family with
      | some r => .ok (.regular r)
      | none => .ok (.nonRegular (NonRegular.new signs digit_family))

/-- `Pattern::mandatory_digit_max`. -/
def Pattern.mandatory_digit_max : Pattern → Nat
  | .nonRegular p => p.mandatory_digit_max
  | .regular p => p.mandatory_digit_max

/-- `Pattern::digit_family`. -/
def Pattern.digit_family : Pattern → Option DigitFamily
  | .nonRegular p => p.digit_family
  | .regular p => p.digit_family

/-- The state of the boxed sign iterator returned by `Pattern::signs`:
either the remaining reversed sign list of a `NonRegular` pattern (followed,
once exhausted, by `OptionalDigit` forever — `NonRegular::signs` chains
`iter::repeat`), or a `RegularIterator`. -/
inductive SignSource where
  | nonRegular (remaining : List Sign)
  | regular (it : RegularIterator)
deriving DecidableEq

/-- One step of the sign iterator (it never ends). -/
def SignSource.next : SignSource → Sign × SignSource
  | .nonRegular [] => (.OptionalDigit, .nonRegular [])
  | .nonRegular (s :: rest) => (s, .nonRegular rest)
  | .regular it =>
    let (s, it') := it.next
    (s, .regular it')

/-- The sign produced `k` steps into the stream. -/
def SignSource.signAt (src : SignSource) : Nat → Sign
  | 0 => (src.next).1
  | k + 1 => SignSource.signAt (src.next).2 k

/-- `Pattern::signs`: the initial iterator state for each variant
(`NonRegular::signs` is `signs.iter().copied().rev().chain(repeat(..))`,
`Regular::signs` is `RegularIterator::new(separator, count)`). -/
def Pattern.signsSource : Pattern → SignSource
  | .nonRegular p => .nonRegular p.signs.reverse
  | .regular p => .regular (RegularIterator.new p.group_separator p.count)

/-- Modelled from the spec: the decimal rendering `IBig::to_string` of the
(nonnegative) integer magnitude is an external collaborator of the core.
`toDecimalLSFAux fuel n` produces the decimal digits of `n`
least-significant first; fuel (always instantiated at `n` itself, which is
ample since `n / 10` at least halves `n` when `n ≥ 1`) keeps the recursion
structural. -/
def toDecimalLSFAux : Nat → Nat → List Char
  | 0, _ => []
  | fuel + 1, n =>
    if n = 0 then []
    else Char.ofNat (48 + n % 10) :: toDecimalLSFAux fuel (n / 10)

/-- Modelled from the spec: decimal digit characters of `n`, most
significant first; `0` renders as `"0"`. -/
def toDecimalChars (n : Nat) : List Char :=
  if n = 0 then ['0'] else (toDecimalLSFAux n n).reverse

/-- The digit-emission conversion inside the generation closure of
`Picture::format`: transliterate through the picture's digit family when one
was declared, otherwise emit the character unchanged. -/
def applyFamily (digit_family : Option DigitFamily) (d : Char) : Char :=
  match digit_family with
  | some f => f.digit (AsciiDigit.new d)
  | none => d

/-- The output-generation loop of `Picture::format` (the `iter::from_fn`
closure): walk the sign stream, consuming one character of the
least-significant-first digit stream per digit sign and emitting the
separator character per separator sign unless the digit stream is exhausted,
in which case generation stops.  The Rust loop is unbounded; here it runs on
fuel, which `Picture.format` sets strictly above the number of steps any
classified pattern can take before exhaustion. -/
def formatWalkGo (digit_family : Option DigitFamily) :
    Nat → SignSource → List Char → List Char
  | 0, _, _ => []
  | fuel + 1, src, digits =>
    match src.next with
    | (sign, src') =>
      match sign with
      | .OptionalDigit | .MandatoryDigit =>
        match digits with
        | [] => []
        | d :: rest =>
          applyFamily digit_family d :: formatWalkGo digit_family fuel src' rest
      | .GroupSeparator c =>
        match digits with
        | [] => []
        | _ :: _ => c :: formatWalkGo digit_family fuel src' digits

/-- `Picture` from `src/format_integer.rs`. -/
structure Picture where
  pattern : Pattern
deriving DecidableEq

/-- `Picture::parse`. -/
def Picture.parse (picture : String) : Except Error Picture :=
  match Pattern.new picture with
  | .ok pattern => .ok ⟨pattern⟩
  | .error e => .error e

/-- `Picture::format`: split off the sign, render `|i|` in decimal, append
the zero padding to the least-significant-first digit stream, walk the sign
stream, append the minus sign, and reverse into most-significant-first
order. -/
def Picture.format (p : Picture) (i : Int) : String :=
  let is_negative := i < 0
  let s := toDecimalChars i.natAbs
  let zeros_amount := p.pattern.mandatory_digit_max - s.length
  let digits := s.reverse ++ List.replicate zeros_amount '0'
  let negative_vec := if is_negative then ['-'] else []
  let output :=
    formatWalkGo p.pattern.digit_family (2 * digits.length + 2)
      p.pattern.signsSource digits ++ negative_vec
  String.mk output.reverse

/-- `format_integer` from `src/format_integer.rs`. -/
def format_integer (i : Int) (picture : String) : Except Error String :=
  match Picture.parse picture with
  | .ok p => .ok (p.format i)
  | .error e => .error e

/-! ### Basic character lemmas -/

theorem char_toNat_ofNat_of_lt {n : Nat} (h : n < 55296) :
    (Char.ofNat n).toNat = n := by
  unfold Char.ofNat
  rw [dif_pos (Or.inl h)]
  simp [Char.toNat, Char.ofNatAux, UInt32.toNat, UInt32.ofNat',
    BitVec.toNat_ofNatLt]

theorem mem_toDecimalLSFAux {fuel n : Nat} :
    ∀ c ∈ toDecimalLSFAux fuel n, 48 ≤ c.toNat ∧ c.toNat ≤ 57 := by
  induction fuel generalizing n with
  | zero => intro c hc; simp [toDecimalLSFAux] at hc
  | succ fuel ih =>
    intro c hc
    unfold toDecimalLSFAux at hc
    by_cases hn : n = 0
    · simp [hn] at hc
    · rw [if_neg hn] at hc
      rcases List.mem_cons.mp hc with h | h
      · subst h
        have hlt : 48 + n % 10 < 55296 := by
          have := Nat.mod_lt n (show 0 < 10 by decide)
          omega
        rw [char_toNat_ofNat_of_lt hlt]
        have := Nat.mod_lt n (show 0 < 10 by decide)
        omega
      · exact ih c h

theorem mem_toDecimalChars {n : Nat} :
    ∀ c ∈ toDecimalChars n, 48 ≤ c.toNat ∧ c.toNat ≤ 57 := by
  intro c hc
  unfold toDecimalChars at hc
  by_cases hn : n = 0
  · simp [hn] at hc
    subst hc; decide
  · rw [if_neg hn, List.mem_reverse] at hc
    exact mem_toDecimalLSFAux c hc

theorem applyFamily_ascii_zero {d : Char} (h48 : 48 ≤ d.toNat)
    (h57 : d.toNat ≤ 57) : applyFamily (some ⟨'0'⟩) d = d := by
  simp only [applyFamily, DigitFamily.digit, AsciiDigit.new]
  show Char.ofNat (d.toNat - '0'.toNat + '0'.toNat) = d
  have h0 : '0'.toNat = 48 := by decide
  rw [h0]
  have hd : d.toNat - 48 + 48 = d.toNat := by omega
  rw [hd, Char.ofNat_toNat]

/-! ### The digit classifier on ASCII digits and on table characters -/

theorem is_group_separator_of_mem_range {c : Char} {r : Nat × Nat}
    (hr : r ∈ decimalRanges) (h1 : r.1 ≤ c.toNat) (h2 : c.toNat ≤ r.2) :
    is_group_separator c = false := by
  have hany : decimalRanges.any (fun q => q.1 ≤ c.toNat && c.toNat ≤ q.2)
      = true :=
    List.any_eq_true.mpr ⟨r, hr, by simp [h1, h2]⟩
  simp only [is_group_separator, generalCategory]
  rw [if_pos hany]
  rfl

theorem is_group_separator_ascii_digit {c : Char} (h48 : 48 ≤ c.toNat)
    (h57 : c.toNat ≤ 57) : is_group_separator c = false :=
  is_group_separator_of_mem_range (r := (0x30, 0x39)) (by decide) h48 h57

theorem digitFamily_new_ascii {c : Char} (h48 : 48 ≤ c.toNat)
    (h57 : c.toNat ≤ 57) : DigitFamily.new c = some ⟨'0'⟩ := by
  unfold DigitFamily.new decimalRanges
  rw [List.find?_cons_of_pos _ (by simp [h48, h57])]
  have hdiv : (c.toNat - 48) / 10 = 0 := Nat.div_eq_of_lt (by omega)
  simp only [Option.map_some']
  rw [hdiv]

theorem ascii_digit_ne_hash {c : Char} (h48 : 48 ≤ c.toNat) : c ≠ '#' := by
  intro h
  subst h
  simp at h48

/-! ### Parsing a picture of ASCII digits only -/

theorem parse_go_ascii_some {p : List Char}
    (hp : ∀ c ∈ p, 48 ≤ c.toNat ∧ c.toNat ≤ 57) (b : Bool) :
    Pattern.parse_go p b (some ⟨'0'⟩) =
      .ok (List.replicate p.length .MandatoryDigit, some ⟨'0'⟩) := by
  induction p generalizing b with
  | nil => simp [Pattern.parse_go]
  | cons c rest ih =>
    have hc := hp c (List.mem_cons_self c rest)
    have hrest : ∀ x ∈ rest, 48 ≤ x.toNat ∧ x.toNat ≤ 57 := fun x hx =>
      hp x (List.mem_cons_of_mem c hx)
    unfold Pattern.parse_go
    simp only [ascii_digit_ne_hash hc.1, if_false,
      is_group_separator_ascii_digit hc.1 hc.2, Bool.false_eq_true,
      digitFamily_new_ascii hc.1 hc.2, ne_eq, not_true_eq_false, ite_false,
      ih hrest, List.length_cons, List.replicate_succ]

theorem parse_ascii {p : List Char}
    (hp : ∀ c ∈ p, 48 ≤ c.toNat ∧ c.toNat ≤ 57) :
    Pattern.parse (String.mk p) =
      .ok (List.replicate p.length .MandatoryDigit,
        if p.isEmpty then none else some ⟨'0'⟩) := by
  show Pattern.parse_go p false none = _
  cases p with
  | nil => simp [Pattern.parse_go]
  | cons c rest =>
    have hc := hp c (List.mem_cons_self c rest)
    have hrest : ∀ x ∈ rest, 48 ≤ x.toNat ∧ x.toNat ≤ 57 := fun x hx =>
      hp x (List.mem_cons_of_mem c hx)
    unfold Pattern.parse_go
    simp only [ascii_digit_ne_hash hc.1, if_false,
      is_group_separator_ascii_digit hc.1 hc.2, Bool.false_eq_true,
      digitFamily_new_ascii hc.1 hc.2, parse_go_ascii_some hrest,
      List.length_cons, List.replicate_succ, List.isEmpty_cons]

theorem validate_go_replicate_M (n : Nat) :
    Pattern.validate_go (List.replicate n .MandatoryDigit) = .ok () := by
  induction n with
  | zero => rfl
  | succ n ih => rw [List.replicate_succ]; exact ih

theorem validate_replicate_M (n : Nat) :
    Pattern.validate (List.replicate n .MandatoryDigit) = .ok () := by
  cases n with
  | zero => rfl
  | succ n =>
    rw [List.replicate_succ]
    show Pattern.validate_go _ = _
    exact validate_go_replicate_M (n + 1)

/-! ### Classification and formatting of separator-free patterns -/

theorem create_regular_go_no_sep {df : Option DigitFamily} {l : List Sign}
    (hl : ∀ c, Sign.GroupSeparator c ∉ l) (lastCount : Option Nat)
    (cnt mmax : Nat) :
    Pattern.create_regular_go df l none lastCount cnt mmax = none := by
  induction l generalizing lastCount cnt mmax with
  | nil => rfl
  | cons s rest ih =>
    cases s with
    | OptionalDigit =>
      exact ih (fun c hc => hl c (List.mem_cons_of_mem _ hc)) _ _ _
    | MandatoryDigit =>
      exact ih (fun c hc => hl c (List.mem_cons_of_mem _ hc)) _ _ _
    | GroupSeparator c => exact absurd (List.mem_cons_self _ _) (hl c)

theorem create_regular_no_sep {signs : List Sign} {df : Option DigitFamily}
    (h : ∀ c, Sign.GroupSeparator c ∉ signs) :
    Pattern.create_regular signs df = none :=
  create_regular_go_no_sep (fun c hc => h c (List.mem_reverse.mp hc)) none 0 0

theorem formatWalkGo_no_sep {df : Option DigitFamily} {l : List Sign}
    (hl : ∀ c, Sign.GroupSeparator c ∉ l) {digits : List Char} {fuel : Nat}
    (hf : digits.length < fuel) :
    formatWalkGo df fuel (.nonRegular l) digits =
      digits.map (applyFamily df) := by
  induction digits generalizing l fuel with
  | nil =>
    cases fuel with
    | zero => omega
    | succ fuel =>
      cases l with
      | nil => rfl
      | cons s rest => cases s <;> rfl
  | cons d ds ih =>
    cases fuel with
    | zero => omega
    | succ fuel =>
      have hds : ds.length < fuel := by
        simp only [List.length_cons] at hf; omega
      cases l with
      | nil =>
        show applyFamily df d :: formatWalkGo df fuel (.nonRegular []) ds = _
        rw [ih (fun c hc => by simp at hc) hds]
        rfl
      | cons s rest =>
        cases s with
        | OptionalDigit =>
          show applyFamily df d ::
            formatWalkGo df fuel (.nonRegular rest) ds = _
          rw [ih (fun c hc => hl c (List.mem_cons_of_mem _ hc)) hds]
          rfl
        | MandatoryDigit =>
          show applyFamily df d ::
            formatWalkGo df fuel (.nonRegular rest) ds = _
          rw [ih (fun c hc => hl c (List.mem_cons_of_mem _ hc)) hds]
          rfl
        | GroupSeparator c => exact absurd (List.mem_cons_self _ _) (hl c)

theorem no_sep_replicate_M (n : Nat) :
    ∀ c, Sign.GroupSeparator c ∉ List.replicate n Sign.MandatoryDigit := by
  intro c hc
  have := List.eq_of_mem_replicate hc
  simp at this

theorem nonRegular_new_replicate_mmax (n : Nat) (df : Option DigitFamily) :
    (NonRegular.new (List.replicate n .MandatoryDigit) df).mandatory_digit_max
      = n := by
  simp only [NonRegular.new]
  induction n with
  | zero => rfl
  | succ n ih =>
    rw [List.replicate_succ, List.filter_cons_of_pos (by rfl),
      List.length_cons, ih]

theorem pattern_new_ascii {p : List Char}
    (hp : ∀ c ∈ p, 48 ≤ c.toNat ∧ c.toNat ≤ 57) :
    Pattern.new (String.mk p) =
      .ok (.nonRegular (NonRegular.new
        (List.replicate p.length .MandatoryDigit)
        (if p.isEmpty then none else some ⟨'0'⟩))) := by
  unfold Pattern.new
  simp only [parse_ascii hp, validate_replicate_M,
    create_regular_no_sep (no_sep_replicate_M p.length)]

theorem format_replicate_M (v : Int) (n : Nat) (df : Option DigitFamily)
    (hid : ∀ d : Char, 48 ≤ d.toNat → d.toNat ≤ 57 → applyFamily df d = d) :
    Picture.format
        ⟨.nonRegular (NonRegular.new (List.replicate n .MandatoryDigit) df)⟩
        v =
      String.mk ((if v < 0 then ['-'] else []) ++
        List.replicate (n - (toDecimalChars v.natAbs).length) '0' ++
        toDecimalChars v.natAbs) := by
  unfold Picture.format
  simp only [Pattern.mandatory_digit_max, Pattern.digit_family,
    Pattern.signsSource, nonRegular_new_replicate_mmax]
  rw [show (NonRegular.new (List.replicate n .MandatoryDigit) df).signs
      = List.replicate n .MandatoryDigit from rfl,
    show (NonRegular.new (List.replicate n .MandatoryDigit) df).digit_family
      = df from rfl,
    List.reverse_replicate]
  set s := toDecimalChars v.natAbs with hs
  set digits := s.reverse ++ List.replicate (n - s.length) '0' with hdig
  rw [formatWalkGo_no_sep (no_sep_replicate_M n) (by omega)]
  have hmap : digits.map (applyFamily df) = digits := by
    rw [show digits.map (applyFamily df) = digits.map id from
      List.map_congr_left (fun d hd => by
        rcases List.mem_append.mp hd with h | h
        · have := mem_toDecimalChars d (List.mem_reverse.mp h)
          exact hid d this.1 this.2
        · have := List.eq_of_mem_replicate h
          subst this
          exact hid '0' (by decide) (by decide)), List.map_id]
  rw [hmap, hdig, List.reverse_append, List.reverse_append,
    List.reverse_replicate, List.reverse_reverse]
  by_cases hv : v < 0
  · simp only [hv, if_true, List.reverse_cons, List.reverse_nil,
      List.nil_append, List.append_assoc]
  · simp only [hv, if_false, List.reverse_nil, List.nil_append,
      List.append_nil, List.append_assoc]

/-! ### Claim theorems: C1, C2, C3, C9 -/

/-- C1: for every integer `v` and every valid picture string consisting only
of ASCII digit characters with no separators, `format_integer v p` returns
`Ok` of the decimal digit string of `|v|` left-padded with `'0'` to the
picture's length, prefixed by `'-'` iff `v < 0`. -/
theorem c1_ascii_digit_picture (v : Int) (p : List Char)
    (hp : ∀ c ∈ p, 48 ≤ c.toNat ∧ c.toNat ≤ 57) :
    format_integer v (String.mk p) =
      .ok (String.mk ((if v < 0 then ['-'] else []) ++
        List.replicate (p.length - (toDecimalChars v.natAbs).length) '0' ++
        toDecimalChars v.natAbs)) := by
  unfold format_integer Picture.parse
  simp only [pattern_new_ascii hp]
  rw [format_replicate_M v p.length _ ?hid]
  case hid =>
    intro d h48 h57
    by_cases he : p.isEmpty
    · simp [he, applyFamily]
    · simp only [he, if_false]
      exact applyFamily_ascii_zero h48 h57

/-- Witness for C1 at `v = -7` and picture `"000"`: the result is
`"-007"`. -/
theorem c1_ascii_digit_picture_witness :
    (∀ c ∈ ['0', '0', '0'], 48 ≤ c.toNat ∧ c.toNat ≤ 57) ∧
    format_integer (-7) (String.mk ['0', '0', '0']) =
      .ok (String.mk ((if (-7 : Int) < 0 then ['-'] else []) ++
        List.replicate (3 - (toDecimalChars (Int.natAbs (-7))).length) '0' ++
        toDecimalChars (Int.natAbs (-7)))) :=
  ⟨by decide, c1_ascii_digit_picture (-7) ['0', '0', '0'] (by decide)⟩

/-- C2: `Picture::parse` fails with the single error kind
`InvalidPictureString` on `"0,,0"`, `",0"`, `"0,"`, `"#"`, `"0#0"` and
`"0٠"` (mixed digit families), and succeeds on `"#0"` and `"0!0"`. -/
theorem c2_picture_parse_validation :
    Picture.parse ("0,,0") = .error .InvalidPictureString ∧
    Picture.parse (",0") = .error .InvalidPictureString ∧
    Picture.parse ("0,") = .error .InvalidPictureString ∧
    Picture.parse ("#") = .error .InvalidPictureString ∧
    Picture.parse ("0#0") = .error .InvalidPictureString ∧
    Picture.parse ("0٠") = .error .InvalidPictureString ∧
    (Picture.parse ("#0")).isOk = true ∧
    (Picture.parse ("0!0")).isOk = true :=
  ⟨rfl, rfl, rfl, rfl, rfl, rfl, rfl, rfl⟩

/-- C3: concrete grouped formatting — zero-padding to the mandatory width,
the minus prefix, and regular grouping continuing indefinitely leftward for
integers wider than the picture. -/
theorem c3_group_placement :
    format_integer 1234 ("0,000") = .ok ("1,234") ∧
    format_integer 4321 ("00,000") = .ok ("04,321") ∧
    format_integer (-1222333) ("0,000") = .ok ("-1,222,333") :=
  ⟨rfl, rfl, rfl⟩

/-- C9: `Picture::parse` accepts the empty picture string, yielding the
`NonRegular` pattern with no signs, `mandatory_digit_max = 0` and no digit
family, and `format_integer v ""` returns `Ok` with the plain decimal
rendering of `v` (no padding, grouping or transliteration). -/
theorem c9_empty_picture :
    Picture.parse ("") = .ok ⟨.nonRegular ⟨[], 0, none⟩⟩ ∧
    ∀ v : Int, format_integer v ("") =
      .ok (String.mk ((if v < 0 then ['-'] else []) ++
        toDecimalChars v.natAbs)) := by
  refine ⟨rfl, fun v => ?_⟩
  show Except.ok (Picture.format
    ⟨.nonRegular (NonRegular.new (List.replicate 0 .MandatoryDigit) none)⟩ v)
    = _
  rw [format_replicate_M v 0 none (fun d _ _ => rfl)]
  simp

/-! ### The sign streams and transliteration -/

theorem formatWalkGo_map_family (f : DigitFamily) (fuel : Nat)
    (src : SignSource) (digits : List Char) :
    formatWalkGo (some f) fuel src digits =
      formatWalkGo none fuel src
        (digits.map (fun d => f.digit (AsciiDigit.new d))) := by
  induction fuel generalizing src digits with
  | zero => rfl
  | succ fuel ih =>
    rcases hnext : src.next with ⟨sign, src'⟩
    unfold formatWalkGo
    rw [hnext]
    cases sign with
    | OptionalDigit =>
      cases digits with
      | nil => rfl
      | cons d rest => simp only [List.map_cons]; rw [ih]; rfl
    | MandatoryDigit =>
      cases digits with
      | nil => rfl
      | cons d rest => simp only [List.map_cons]; rw [ih]; rfl
    | GroupSeparator c =>
      cases digits with
      | nil => rfl
      | cons d rest =>
        show c :: formatWalkGo (some f) fuel src' (d :: rest) =
          c :: formatWalkGo none fuel src'
            (List.map (fun x => f.digit (AsciiDigit.new x)) (d :: rest))
        rw [ih]

theorem signAt_nonRegular (l : List Sign) (k : Nat) :
    SignSource.signAt (.nonRegular l) k =
      (l.get? k).getD .OptionalDigit := by
  induction k generalizing l with
  | zero => cases l <;> rfl
  | succ k ih =>
    cases l with
    | nil =>
      show SignSource.signAt (.nonRegular []) k = _
      rw [ih]
      rfl
    | cons s rest =>
      show SignSource.signAt (.nonRegular rest) k = _
      rw [ih]
      rfl

theorem signAt_regular (c : Char) (g p : Nat) (hp : p ≤ g) (k : Nat) :
    SignSource.signAt (.regular ⟨p, c, g⟩) k =
      if (p + k) % (g + 1) < g then .MandatoryDigit
      else .GroupSeparator c := by
  induction k generalizing p with
  | zero =>
    show (SignSource.next (.regular ⟨p, c, g⟩)).1 = _
    by_cases h : p < g
    · rw [if_pos (by rw [Nat.add_zero, Nat.mod_eq_of_lt (by omega)]; exact h)]
      simp [SignSource.next, RegularIterator.next, h]
    · have hpg : p = g := by omega
      subst hpg
      rw [if_neg (by rw [Nat.add_zero, Nat.mod_eq_of_lt (by omega)]; omega)]
      simp [SignSource.next, RegularIterator.next]
  | succ k ih =>
    show SignSource.signAt (SignSource.next (.regular ⟨p, c, g⟩)).2 k = _
    by_cases h : p < g
    · have hstep : (SignSource.next (.regular ⟨p, c, g⟩)).2 =
          .regular ⟨p + 1, c, g⟩ := by
        simp [SignSource.next, RegularIterator.next, h]
      rw [hstep, ih (p + 1) (by omega),
        show p + 1 + k = p + (k + 1) by omega]
    · have hpg : p = g := by omega
      rw [hpg]
      have hstep : (SignSource.next (.regular ⟨g, c, g⟩)).2 =
          .regular ⟨0, c, g⟩ := by
        simp [SignSource.next, RegularIterator.next]
      rw [hstep, ih 0 (Nat.zero_le _)]
      congr 2
      rw [Nat.zero_add, show g + (k + 1) = k + (g + 1) by omega,
        Nat.add_mod_right]

/-! ### Claim theorems: C6, C8 -/

/-- C6: the sign stream of a validated pattern is conceptually infinite and
ordered from the least-significant digit position upward: a `NonRegular`
pattern replays its finite sign list once in reverse order and then yields
`OptionalDigit` forever after; a `Regular` pattern yields `count` digit
signs followed by one occurrence of its separator, repeating that cycle
forever (position `k` of the stream is a digit sign iff
`k % (count + 1) < count`). -/
theorem c6_sign_stream_contract :
    (∀ (p : NonRegular) (k : Nat),
      SignSource.signAt (Pattern.signsSource (.nonRegular p)) k =
        (p.signs.reverse.get? k).getD .OptionalDigit) ∧
    (∀ (r : Regular) (k : Nat),
      SignSource.signAt (Pattern.signsSource (.regular r)) k =
        if k % (r.count + 1) < r.count then .MandatoryDigit
        else .GroupSeparator r.group_separator) := by
  constructor
  · intro p k
    exact signAt_nonRegular _ k
  · intro r k
    have h := signAt_regular r.group_separator r.count 0 (Nat.zero_le _) k
    rw [Nat.zero_add] at h
    exact h

/-- C8: when a picture declares a digit family, every digit character
emitted by the generation loop (the natural digits and the `'0'` padding
alike) is transliterated through `DigitFamily::digit` by literal
per-character substitution, preserving positional order — the walk with a
family equals the walk without one on the pre-transliterated digit stream —
and in particular `format_integer 15 "١" = Ok "١٥"`. -/
theorem c8_digit_family_transliteration :
    (∀ (f : DigitFamily) (fuel : Nat) (src : SignSource)
      (digits : List Char),
      formatWalkGo (some f) fuel src digits =
        formatWalkGo none fuel src
          (digits.map (fun d => f.digit (AsciiDigit.new d)))) ∧
    format_integer 15 ("١") = .ok ("١٥") :=
  ⟨formatWalkGo_map_family, rfl⟩

/-! ### Regular-vs-NonRegular refinement (C4) -/

/-- Modelled from the spec (the regular/irregular-equivalence property): the
left-to-right sign list of a picture built by literally repeating the group
of a `Regular` pattern — `count` digit positions plus its separator — until
`m + 1` groups are present. -/
def repeatedGroup (c : Char) (g m : Nat) : List Sign :=
  List.replicate g .MandatoryDigit ++
    (List.replicate m
      (Sign.GroupSeparator c :: List.replicate g .MandatoryDigit)).flatten

/-- The reversed (least-significant-first) sign supply of `repeatedGroup`
mid-consumption: `r` digit signs remain in the current group, then `k` whole
groups (one separator plus `g` digit signs) follow. -/
def streamList (c : Char) (g r k : Nat) : List Sign :=
  List.replicate r .MandatoryDigit ++
    (List.replicate k
      (Sign.GroupSeparator c :: List.replicate g .MandatoryDigit)).flatten

/-- The common closed form of both walks: emit digits least-significant
first, inserting the separator `c` after every `g` digits; `r` counts the
digits still to emit in the current group. -/
def chunkLSF (df : Option DigitFamily) (c : Char) (g : Nat) :
    List Char → Nat → List Char
  | [], _ => []
  | d :: rest, r + 1 => applyFamily df d :: chunkLSF df c g rest r
  | d :: rest, 0 => c :: applyFamily df d :: chunkLSF df c g rest (g - 1)

theorem streamList_succ_r (c : Char) (g r k : Nat) :
    streamList c g (r + 1) k = .MandatoryDigit :: streamList c g r k := by
  simp [streamList, List.replicate_succ]

theorem streamList_zero_r (c : Char) (g k : Nat) :
    streamList c g 0 (k + 1) =
      Sign.GroupSeparator c :: streamList c g g k := by
  simp [streamList, List.replicate_succ, List.flatten_cons]

theorem repeatedGroup_reverse (c : Char) (g m : Nat) :
    (repeatedGroup c g m).reverse = streamList c g g m := by
  induction m with
  | zero => simp [repeatedGroup, streamList, List.reverse_replicate]
  | succ m ih =>
    have hsucc : repeatedGroup c g (m + 1) = repeatedGroup c g m ++
        (Sign.GroupSeparator c :: List.replicate g .MandatoryDigit) := by
      unfold repeatedGroup
      rw [List.replicate_succ' m, List.flatten_append, List.append_assoc]
      simp [List.flatten_cons]
    rw [hsucc, List.reverse_append, ih]
    unfold streamList
    rw [List.reverse_cons, List.reverse_replicate]
    simp [List.replicate_succ, List.flatten_cons, List.append_assoc]

theorem formatWalkGo_nil (df : Option DigitFamily) {fuel : Nat}
    (src : SignSource) (h : 1 ≤ fuel) : formatWalkGo df fuel src [] = [] := by
  cases fuel with
  | zero => omega
  | succ f =>
    rcases hnext : src.next with ⟨sign, src'⟩
    unfold formatWalkGo
    rw [hnext]
    cases sign <;> rfl

theorem walk_regular_chunk (df : Option DigitFamily) (c : Char) (g : Nat)
    (hg : 1 ≤ g) (fuel : Nat) :
    ∀ (digits : List Char) (p : Nat), p ≤ g →
      2 * digits.length + 2 ≤ fuel →
      formatWalkGo df fuel (.regular ⟨p, c, g⟩) digits =
        chunkLSF df c g digits (g - p) := by
  induction fuel using Nat.strong_induction_on with
  | _ fuel ih =>
    intro digits p hp hf
    cases fuel with
    | zero => omega
    | succ f =>
      by_cases hpg : p < g
      · have hnext : SignSource.next (.regular ⟨p, c, g⟩) =
            (Sign.MandatoryDigit, .regular ⟨p + 1, c, g⟩) := by
          simp [SignSource.next, RegularIterator.next, hpg]
        cases digits with
        | nil =>
          unfold formatWalkGo
          rw [hnext]
          rfl
        | cons d rest =>
          unfold formatWalkGo
          rw [hnext]
          show applyFamily df d ::
            formatWalkGo df f (.regular ⟨p + 1, c, g⟩) rest = _
          rw [ih f (by omega) rest (p + 1) (by omega)
            (by simp only [List.length_cons] at hf; omega)]
          have hr : g - p = (g - (p + 1)) + 1 := by omega
          rw [hr]
          rfl
      · have hpg' : p = g := by omega
        have hnext : SignSource.next (.regular ⟨p, c, g⟩) =
            (Sign.GroupSeparator c, .regular ⟨0, c, g⟩) := by
          simp [SignSource.next, RegularIterator.next, hpg']
        cases digits with
        | nil =>
          unfold formatWalkGo
          rw [hnext]
          rfl
        | cons d rest =>
          unfold formatWalkGo
          rw [hnext]
          show c :: formatWalkGo df f (.regular ⟨0, c, g⟩) (d :: rest) = _
          cases f with
          | zero => simp only [List.length_cons] at hf; omega
          | succ f' =>
            have hnext2 : SignSource.next (.regular ⟨0, c, g⟩) =
                (Sign.MandatoryDigit, .regular ⟨1, c, g⟩) := by
              have h0 : (0 : Nat) < g := hg
              simp [SignSource.next, RegularIterator.next, h0]
            unfold formatWalkGo
            rw [hnext2]
            show c :: (applyFamily df d ::
              formatWalkGo df f' (.regular ⟨1, c, g⟩) rest) = _
            rw [ih f' (by omega) rest 1 hg
              (by simp only [List.length_cons] at hf; omega)]
            rw [show g - p = 0 by omega]
            obtain ⟨g', rfl⟩ : ∃ g', g = g' + 1 := ⟨g - 1, by omega⟩
            show c :: (applyFamily df d ::
              chunkLSF df c (g' + 1) rest g') = _
            rfl

theorem walk_streamList_chunk (df : Option DigitFamily) (c : Char) (g : Nat)
    (hg : 1 ≤ g) (fuel : Nat) :
    ∀ (digits : List Char) (k r : Nat), r ≤ g →
      digits.length ≤ k * g + r →
      2 * digits.length + 2 ≤ fuel →
      formatWalkGo df fuel (.nonRegular (streamList c g r k)) digits =
        chunkLSF df c g digits r := by
  induction fuel using Nat.strong_induction_on with
  | _ fuel ih =>
    intro digits k r hr hcov hf
    cases fuel with
    | zero => omega
    | succ f =>
      cases digits with
      | nil =>
        rw [formatWalkGo_nil df _ (by omega)]
        rfl
      | cons d rest =>
        cases r with
        | succ r' =>
          rw [streamList_succ_r]
          unfold formatWalkGo
          show applyFamily df d ::
            formatWalkGo df f (.nonRegular (streamList c g r' k)) rest = _
          rw [ih f (by omega) rest k r' (by omega)
            (by simp only [List.length_cons] at hcov; omega)
            (by simp only [List.length_cons] at hf; omega)]
          rfl
        | zero =>
          obtain ⟨k', rfl⟩ : ∃ k', k = k' + 1 := by
            cases k with
            | zero =>
              exfalso
              simp only [List.length_cons, Nat.zero_mul, Nat.add_zero]
                at hcov
              omega
            | succ k' => exact ⟨k', rfl⟩
          rw [streamList_zero_r]
          unfold formatWalkGo
          show c :: formatWalkGo df f
            (.nonRegular (streamList c g g k')) (d :: rest) = _
          cases f with
          | zero => simp only [List.length_cons] at hf; omega
          | succ f' =>
            obtain ⟨g', rfl⟩ : ∃ g', g = g' + 1 := ⟨g - 1, by omega⟩
            rw [streamList_succ_r]
            unfold formatWalkGo
            show c :: (applyFamily df d :: formatWalkGo df f'
              (.nonRegular (streamList c (g' + 1) g' k')) rest) = _
            rw [ih f' (by omega) rest k' g' (by omega)
              (by
                simp only [List.length_cons] at hcov
                have hmul : (k' + 1) * (g' + 1) = k' * (g' + 1) + (g' + 1) :=
                  by ring
                omega)
              (by simp only [List.length_cons] at hf; omega)]
            rfl

/-- C4: for every picture classified `Regular` and every integer, formatting
equals formatting the equivalent `NonRegular` picture obtained by literally
repeating the regular group (its `count` digit positions plus its separator)
until the groups cover the digit stream (natural digits plus mandatory
zero-padding): regular classification is a pure optimization with no
semantic effect.  (`repeatedGroup` spells the group out `m + 1` times; the
equivalent picture keeps the same `mandatory_digit_max` and digit family, as
produced by the classifier.) -/
theorem c4_regular_nonregular_equivalence (r : Regular) (i : Int) (m : Nat)
    (hg : 1 ≤ r.count)
    (hcov : max (toDecimalChars i.natAbs).length r.mandatory_digit_max ≤
      (m + 1) * r.count) :
    Picture.format ⟨.regular r⟩ i =
      Picture.format ⟨.nonRegular
        ⟨repeatedGroup r.group_separator r.count m, r.mandatory_digit_max,
          r.digit_family⟩⟩ i := by
  obtain ⟨c, g, mmax, df⟩ := r
  simp only [Regular.count] at hg
  simp only [Regular.count, Regular.mandatory_digit_max] at hcov
  unfold Picture.format
  simp only [Pattern.mandatory_digit_max, Pattern.digit_family,
    Pattern.signsSource]
  set s := toDecimalChars i.natAbs with hs
  set digits := s.reverse ++ List.replicate (mmax - s.length) '0' with hd
  have hlen : digits.length = max s.length mmax := by
    rw [hd, List.length_append, List.length_reverse, List.length_replicate]
    omega
  rw [show RegularIterator.new c g = ⟨0, c, g⟩ from rfl]
  rw [walk_regular_chunk df c g hg _ digits 0 (Nat.zero_le g) (le_refl _)]
  rw [repeatedGroup_reverse]
  rw [walk_streamList_chunk df c g hg _ digits m g (le_refl g)
    (by
      rw [hlen]
      have hmul : (m + 1) * g = m * g + g := by ring
      rw [← hmul]
      exact hcov)
    (le_refl _)]
  rw [Nat.sub_zero]

/-- Witness for C4 at the regular pattern of `"0,000"`
(`Regular{',', 3, 4}` with the ASCII family), `i = 12345`, `m = 1`: both the
regular pattern and the spelled-out `"000,000"`-shaped sign list format
`12345` identically. -/
theorem c4_regular_nonregular_equivalence_witness :
    1 ≤ (3 : Nat) ∧
    max (toDecimalChars (Int.natAbs 12345)).length 4 ≤ (1 + 1) * 3 ∧
    Picture.format ⟨.regular ⟨',', 3, 4, some ⟨'0'⟩⟩⟩ 12345 =
      Picture.format ⟨.nonRegular
        ⟨repeatedGroup ',' 3 1, 4, some ⟨'0'⟩⟩⟩ 12345 :=
  ⟨by decide, by decide,
    c4_regular_nonregular_equivalence ⟨',', 3, 4, some ⟨'0'⟩⟩ 12345 1
      (by decide) (by decide)⟩

/-! ### The classification algorithm (C5) -/

/-- Modelled from the claim (C5): the separator characters met during the
least-significant-first scan of a sign list. -/
def sepChars (l : List Sign) : List Char :=
  l.filterMap (fun s => match s with
    | .GroupSeparator c => some c
    | _ => none)

/-- Modelled from the claim (C5): the running digit count recorded at each
separator during the least-significant-first scan, starting from `cnt`. -/
def groupLens : List Sign → Nat → List Nat
  | [], _ => []
  | .GroupSeparator _ :: rest, cnt => cnt :: groupLens rest 0
  | .OptionalDigit :: rest, cnt => groupLens rest (cnt + 1)
  | .MandatoryDigit :: rest, cnt => groupLens rest (cnt + 1)

/-- The number of `MandatoryDigit` signs of a sign list. -/
def countMandatory (l : List Sign) : Nat :=
  (l.filter (fun s => match s with
    | .MandatoryDigit => true
    | _ => false)).length

/-- Modelled from the claim (C5): classification scans the validated sign
sequence from the least-significant end; it yields `Regular` iff at least
one separator is present, every separator equals the first one recorded,
and the running digit count at each later separator equals the first
recorded group length; `count` is the recorded group length and
`mandatory_digit_max` the number of `MandatoryDigit` signs. -/
def createRegularSpec (signs : List Sign) (df : Option DigitFamily) :
    Option Regular :=
  match sepChars signs.reverse, groupLens signs.reverse 0 with
  | c0 :: cs, n0 :: ns =>
    if cs.all (fun c => c == c0) && ns.all (fun n => n == n0) then
      some ⟨c0, n0, countMandatory signs, df⟩
    else none
  | _, _ => none

theorem countMandatory_reverse (l : List Sign) :
    countMandatory l.reverse = countMandatory l := by
  unfold countMandatory
  rw [List.filter_reverse, List.length_reverse]

theorem create_regular_go_some (df : Option DigitFamily) (rest : List Sign) :
    ∀ (c0 : Char) (n0 cnt mmax : Nat),
    Pattern.create_regular_go df rest (some c0) (some n0) cnt mmax =
      if (sepChars rest).all (fun c => c == c0) &&
          ((groupLens rest cnt).all (fun n => n == n0)) then
        some ⟨c0, n0, mmax + countMandatory rest, df⟩
      else none := by
  induction rest with
  | nil =>
    intro c0 n0 cnt mmax
    simp [Pattern.create_regular_go, sepChars, groupLens, countMandatory]
  | cons s rest ih =>
    intro c0 n0 cnt mmax
    cases s with
    | MandatoryDigit =>
      show Pattern.create_regular_go df rest (some c0) (some n0)
        (cnt + 1) (mmax + 1) = _
      rw [ih]
      have hsep : sepChars (.MandatoryDigit :: rest) = sepChars rest := rfl
      have hgl : groupLens (.MandatoryDigit :: rest) cnt =
        groupLens rest (cnt + 1) := rfl
      have hcm : countMandatory (.MandatoryDigit :: rest) =
          countMandatory rest + 1 := by
        unfold countMandatory
        rw [List.filter_cons_of_pos (by rfl), List.length_cons]
      rw [hsep, hgl, hcm, show mmax + (countMandatory rest + 1) =
        mmax + 1 + countMandatory rest by omega]
    | OptionalDigit =>
      show Pattern.create_regular_go df rest (some c0) (some n0)
        (cnt + 1) mmax = _
      rw [ih]
      have hsep : sepChars (.OptionalDigit :: rest) = sepChars rest := rfl
      have hgl : groupLens (.OptionalDigit :: rest) cnt =
        groupLens rest (cnt + 1) := rfl
      have hcm : countMandatory (.OptionalDigit :: rest) =
          countMandatory rest := by
        unfold countMandatory
        rw [List.filter_cons_of_neg (by simp)]
      rw [hsep, hgl, hcm]
    | GroupSeparator c =>
      have hsep : sepChars (.GroupSeparator c :: rest) =
        c :: sepChars rest := rfl
      have hgl : groupLens (.GroupSeparator c :: rest) cnt =
        cnt :: groupLens rest 0 := rfl
      have hcm : countMandatory (.GroupSeparator c :: rest) =
          countMandatory rest := by
        unfold countMandatory
        rw [List.filter_cons_of_neg (by simp)]
      rw [hsep, hgl, hcm, List.all_cons, List.all_cons]
      by_cases hcc : c0 = c
      · subst hcc
        show (match (if c0 ≠ c0 then none else some c0 : Option Char) with
          | none => none
          | some c1 =>
            match (if cnt ≠ n0 then none else some n0 : Option Nat) with
            | none => none
            | some k1 =>
              Pattern.create_regular_go df rest (some c1) (some k1) 0 mmax)
          = _
        rw [if_neg (show ¬(c0 ≠ c0) from fun h => h rfl)]
        by_cases hn : cnt = n0
        · subst hn
          rw [if_neg (show ¬(cnt ≠ cnt) from fun h => h rfl)]
          show Pattern.create_regular_go df rest (some c0) (some cnt)
            0 mmax = _
          rw [ih]
          simp only [beq_self_eq_true, Bool.true_and]
        · rw [if_pos hn]
          have hb : (cnt == n0) = false := beq_eq_false_iff_ne.mpr hn
          rw [hb]
          simp
      · show (match (if c0 ≠ c then none else some c0 : Option Char) with
          | none => none
          | some c1 =>
            match (if cnt ≠ n0 then none else some n0 : Option Nat) with
            | none => none
            | some k1 =>
              Pattern.create_regular_go df rest (some c1) (some k1) 0 mmax)
          = _
        rw [if_pos hcc]
        have hb : (c == c0) = false :=
          beq_eq_false_iff_ne.mpr (fun h => hcc h.symm)
        rw [hb]
        simp

theorem create_regular_go_none (df : Option DigitFamily) (rest : List Sign) :
    ∀ (cnt mmax : Nat),
    Pattern.create_regular_go df rest none none cnt mmax =
      (match sepChars rest, groupLens rest cnt with
      | c0 :: cs, n0 :: ns =>
        if cs.all (fun c => c == c0) && ns.all (fun n => n == n0) then
          some ⟨c0, n0, mmax + countMandatory rest, df⟩
        else none
      | _, _ => none) := by
  induction rest with
  | nil => intro cnt mmax; rfl
  | cons s rest ih =>
    intro cnt mmax
    cases s with
    | MandatoryDigit =>
      show Pattern.create_regular_go df rest none none (cnt + 1) (mmax + 1)
        = _
      rw [ih]
      have hsep : sepChars (.MandatoryDigit :: rest) = sepChars rest := rfl
      have hgl : groupLens (.MandatoryDigit :: rest) cnt =
        groupLens rest (cnt + 1) := rfl
      have hcm : countMandatory (.MandatoryDigit :: rest) =
          countMandatory rest + 1 := by
        unfold countMandatory
        rw [List.filter_cons_of_pos (by rfl), List.length_cons]
      rw [hsep, hgl, hcm]
      cases hs : sepChars rest with
      | nil => rfl
      | cons c0 cs =>
        cases hl : groupLens rest (cnt + 1) with
        | nil => rfl
        | cons n0 ns =>
          rw [show mmax + (countMandatory rest + 1) =
            mmax + 1 + countMandatory rest from by omega]
    | OptionalDigit =>
      show Pattern.create_regular_go df rest none none (cnt + 1) mmax = _
      rw [ih]
      have hsep : sepChars (.OptionalDigit :: rest) = sepChars rest := rfl
      have hgl : groupLens (.OptionalDigit :: rest) cnt =
        groupLens rest (cnt + 1) := rfl
      have hcm : countMandatory (.OptionalDigit :: rest) =
          countMandatory rest := by
        unfold countMandatory
        rw [List.filter_cons_of_neg (by simp)]
      rw [hsep, hgl, hcm]
    | GroupSeparator c =>
      show Pattern.create_regular_go df rest (some c) (some cnt) 0 mmax = _
      rw [create_regular_go_some df rest c cnt 0 mmax]
      have hsep : sepChars (.GroupSeparator c :: rest) =
        c :: sepChars rest := rfl
      have hgl : groupLens (.GroupSeparator c :: rest) cnt =
        cnt :: groupLens rest 0 := rfl
      have hcm : countMandatory (.GroupSeparator c :: rest) =
          countMandatory rest := by
        unfold countMandatory
        rw [List.filter_cons_of_neg (by simp)]
      rw [hsep, hgl, hcm]

theorem create_regular_eq_spec (signs : List Sign) (df : Option DigitFamily) :
    Pattern.create_regular signs df = createRegularSpec signs df := by
  unfold Pattern.create_regular createRegularSpec
  rw [create_regular_go_none df signs.reverse 0 0]
  cases hs : sepChars signs.reverse with
  | nil => rfl
  | cons c0 cs =>
    cases hl : groupLens signs.reverse 0 with
    | nil => rfl
    | cons n0 ns =>
      rw [Nat.zero_add, countMandatory_reverse]

/-- C5: classification scans the validated sign sequence from the
least-significant (rightmost) end: it yields `Regular` iff at least one
`GroupSeparator` is present, every separator encountered equals the first
one recorded, and the running digit count at each later separator equals
the first recorded group length; the group size is the recorded group
length, `mandatory_digit_max` is the count of `MandatoryDigit` signs, and
otherwise the result is `NonRegular` retaining the sign sequence
(`createRegularSpec` spells out exactly this description). -/
theorem c5_classification (signs : List Sign) (df : Option DigitFamily) :
    Pattern.create_regular signs df = createRegularSpec signs df ∧
    (NonRegular.new signs df).signs = signs :=
  ⟨create_regular_eq_spec signs df, rfl⟩

/-! ### Structural facts about validated patterns (towards C7 and C10) -/

/-- Whether a sign is a group separator. -/
def isSep : Sign → Bool
  | .GroupSeparator _ => true
  | _ => false

/-- Whether a character lies in one of the modelled decimal ranges. -/
def isDecimalChar (c : Char) : Bool :=
  decimalRanges.any (fun r => r.1 ≤ c.toNat && c.toNat ≤ r.2)

theorem mem_of_getLast?_eq_some {α : Type} {l : List α} {a : α}
    (h : l.getLast? = some a) : a ∈ l := by
  induction l with
  | nil => simp at h
  | cons b bs ih =>
    cases bs with
    | nil =>
      simp at h
      exact h ▸ List.mem_cons_self b []
    | cons t ts =>
      rw [List.getLast?_cons_cons] at h
      exact List.mem_cons_of_mem b (ih h)

theorem toDecimalChars_ne_nil (n : Nat) : toDecimalChars n ≠ [] := by
  unfold toDecimalChars
  by_cases hn : n = 0
  · simp [hn]
  · rw [if_neg hn]
    obtain ⟨m, rfl⟩ : ∃ m, n = m + 1 := ⟨n - 1, by omega⟩
    unfold toDecimalLSFAux
    rw [if_neg hn]
    simp

theorem decimalRanges_facts :
    ∀ r ∈ decimalRanges, r.2 = r.1 + 9 ∧ r.2 < 55296 := by decide

theorem digitFamily_new_zero {c : Char} {f : DigitFamily}
    (h : DigitFamily.new c = some f) :
    ∃ r ∈ decimalRanges, f.zero.toNat = r.1 := by
  unfold DigitFamily.new at h
  cases hfind : decimalRanges.find?
      (fun r => r.1 ≤ c.toNat && c.toNat ≤ r.2) with
  | none => rw [hfind] at h; simp at h
  | some r =>
    rw [hfind] at h
    simp only [Option.map_some', Option.some.injEq] at h
    have hmem : r ∈ decimalRanges := List.mem_of_find?_eq_some hfind
    have hpred := List.find?_some hfind
    simp only [Bool.and_eq_true, decide_eq_true_eq] at hpred
    have hfacts := decimalRanges_facts r hmem
    have hdiv : (c.toNat - r.1) / 10 = 0 := Nat.div_eq_of_lt (by omega)
    refine ⟨r, hmem, ?_⟩
    rw [← h]
    show (Char.ofNat ((c.toNat - r.1) / 10 + r.1)).toNat = r.1
    rw [hdiv, Nat.zero_add, char_toNat_ofNat_of_lt (by omega)]

theorem family_digit_isDecimal {f : DigitFamily}
    (hz : ∃ r ∈ decimalRanges, f.zero.toNat = r.1) {d : Char}
    (h48 : 48 ≤ d.toNat) (h57 : d.toNat ≤ 57) :
    isDecimalChar (f.digit (AsciiDigit.new d)) = true := by
  obtain ⟨r, hmem, hzero⟩ := hz
  have hfacts := decimalRanges_facts r hmem
  have htn : (f.digit (AsciiDigit.new d)).toNat = d.toNat - 48 + r.1 := by
    show (Char.ofNat (d.toNat - '0'.toNat + f.zero.toNat)).toNat = _
    rw [show '0'.toNat = 48 from rfl, hzero]
    exact char_toNat_ofNat_of_lt (by omega)
  unfold isDecimalChar
  refine List.any_eq_true.mpr ⟨r, hmem, ?_⟩
  simp only [Bool.and_eq_true, decide_eq_true_eq]
  rw [htn]
  omega

theorem ascii_isDecimal {d : Char} (h48 : 48 ≤ d.toNat)
    (h57 : d.toNat ≤ 57) : isDecimalChar d = true := by
  unfold isDecimalChar
  refine List.any_eq_true.mpr ⟨(0x30, 0x39), by decide, ?_⟩
  simp only [Bool.and_eq_true, decide_eq_true_eq]
  omega

theorem is_group_separator_of_isDecimal {c : Char}
    (h : isDecimalChar c = true) : is_group_separator c = false := by
  unfold isDecimalChar at h
  obtain ⟨r, hmem, hpred⟩ := List.any_eq_true.mp h
  simp only [Bool.and_eq_true, decide_eq_true_eq] at hpred
  exact is_group_separator_of_mem_range hmem hpred.1 hpred.2

theorem parse_go_cons_ok {c : Char} {rest : List Char} {ms : Bool}
    {df0 : Option DigitFamily} {signs : List Sign}
    {dfOut : Option DigitFamily}
    (h : Pattern.parse_go (c :: rest) ms df0 = .ok (signs, dfOut)) :
    ∃ s signs' ms' df1,
      Pattern.parse_go rest ms' df1 = .ok (signs', dfOut) ∧
      signs = s :: signs' ∧
      ((s = .OptionalDigit ∧ ms' = ms ∧ df1 = df0) ∨
       (∃ cc, s = .GroupSeparator cc ∧ ms' = ms ∧ df1 = df0) ∨
       (s = .MandatoryDigit ∧ ms' = true ∧
        ∃ f', DigitFamily.new c = some f' ∧ df1 = some f' ∧
          (df0 = none ∨ df0 = some f'))) := by
  unfold Pattern.parse_go at h
  split at h
  · -- c = '#'
    split at h
    · -- !ms = true
      cases hrec : Pattern.parse_go rest ms df0 with
      | error e => rw [hrec] at h; exact absurd h (by simp)
      | ok pr =>
        obtain ⟨signs', df'⟩ := pr
        rw [hrec] at h
        simp only [Except.ok.injEq, Prod.mk.injEq] at h
        exact ⟨.OptionalDigit, signs', ms, df0, by rw [hrec, h.2],
          h.1.symm, Or.inl ⟨rfl, rfl, rfl⟩⟩
    · exact absurd h (by simp)
  · split at h
    · -- separator
      cases hrec : Pattern.parse_go rest ms df0 with
      | error e => rw [hrec] at h; exact absurd h (by simp)
      | ok pr =>
        obtain ⟨signs', df'⟩ := pr
        rw [hrec] at h
        simp only [Except.ok.injEq, Prod.mk.injEq] at h
        exact ⟨.GroupSeparator c, signs', ms, df0, by rw [hrec, h.2],
          h.1.symm, Or.inr (Or.inl ⟨c, rfl, rfl, rfl⟩)⟩
    · -- digit
      cases hfam : DigitFamily.new c with
      | none => rw [hfam] at h; exact absurd h (by simp)
      | some found =>
        rw [hfam] at h
        dsimp only [] at h
        cases df0 with
        | some df0' =>
          dsimp only [] at h
          by_cases heq : found = df0'
          · subst heq
            rw [if_neg (fun hne => hne rfl)] at h
            cases hrec : Pattern.parse_go rest true (some found) with
            | error e => rw [hrec] at h; exact absurd h (by simp)
            | ok pr =>
              obtain ⟨signs', df'⟩ := pr
              rw [hrec] at h
              simp only [Except.ok.injEq, Prod.mk.injEq] at h
              exact ⟨.MandatoryDigit, signs', true, some found,
                by rw [hrec, h.2], h.1.symm,
                Or.inr (Or.inr ⟨rfl, rfl, found, rfl, rfl, Or.inr rfl⟩)⟩
          · rw [if_pos heq] at h
            exact absurd h (by simp)
        | none =>
          dsimp only [] at h
          cases hrec : Pattern.parse_go rest true (some found) with
          | error e => rw [hrec] at h; exact absurd h (by simp)
          | ok pr =>
            obtain ⟨signs', df'⟩ := pr
            rw [hrec] at h
            simp only [Except.ok.injEq, Prod.mk.injEq] at h
            exact ⟨.MandatoryDigit, signs', true, some found,
              by rw [hrec, h.2], h.1.symm,
              Or.inr (Or.inr ⟨rfl, rfl, found, rfl, rfl, Or.inl rfl⟩)⟩

theorem parse_go_stays_some {p : List Char} :
    ∀ {ms : Bool} {f : DigitFamily} {signs : List Sign}
      {dfOut : Option DigitFamily},
    Pattern.parse_go p ms (some f) = .ok (signs, dfOut) →
    ∃ g, dfOut = some g := by
  induction p with
  | nil =>
    intro ms f signs dfOut h
    unfold Pattern.parse_go at h
    simp only [Except.ok.injEq, Prod.mk.injEq] at h
    exact ⟨f, h.2.symm⟩
  | cons c rest ih =>
    intro ms f signs dfOut h
    obtain ⟨s, signs', ms', df1, hrec, hsigns, hcase⟩ := parse_go_cons_ok h
    rcases hcase with ⟨_, _, hdf1⟩ | ⟨cc, _, _, hdf1⟩ |
      ⟨_, _, f', hnew, hdf1, hdf0⟩
    · exact ih (hdf1 ▸ hrec)
    · exact ih (hdf1 ▸ hrec)
    · exact ih (hdf1 ▸ hrec)

theorem parse_go_family {p : List Char} :
    ∀ {ms : Bool} {df0 : Option DigitFamily} {signs : List Sign}
      {dfOut : Option DigitFamily},
    Pattern.parse_go p ms df0 = .ok (signs, dfOut) →
    dfOut = df0 ∨
      ∃ c f', DigitFamily.new c = some f' ∧ dfOut = some f' := by
  induction p with
  | nil =>
    intro ms df0 signs dfOut h
    unfold Pattern.parse_go at h
    simp only [Except.ok.injEq, Prod.mk.injEq] at h
    exact Or.inl h.2.symm
  | cons c rest ih =>
    intro ms df0 signs dfOut h
    obtain ⟨s, signs', ms', df1, hrec, hsigns, hcase⟩ := parse_go_cons_ok h
    rcases hcase with ⟨_, _, hdf1⟩ | ⟨cc, _, _, hdf1⟩ |
      ⟨_, _, f', hnew, hdf1, hdf0⟩
    · exact hdf1 ▸ ih hrec
    · exact hdf1 ▸ ih hrec
    · rcases ih (hdf1 ▸ hrec) with hsame | hdeep
      · exact Or.inr ⟨c, f', hnew, hsame⟩
      · exact Or.inr hdeep

theorem parse_go_mandatory_some {p : List Char} :
    ∀ {ms : Bool} {df0 : Option DigitFamily} {signs : List Sign}
      {dfOut : Option DigitFamily},
    Pattern.parse_go p ms df0 = .ok (signs, dfOut) →
    Sign.MandatoryDigit ∈ signs →
    ∃ g, dfOut = some g := by
  induction p with
  | nil =>
    intro ms df0 signs dfOut h hm
    unfold Pattern.parse_go at h
    simp only [Except.ok.injEq, Prod.mk.injEq] at h
    rw [← h.1] at hm
    simp at hm
  | cons c rest ih =>
    intro ms df0 signs dfOut h hm
    obtain ⟨s, signs', ms', df1, hrec, hsigns, hcase⟩ := parse_go_cons_ok h
    rcases hcase with ⟨hs, _, hdf1⟩ | ⟨cc, hs, _, hdf1⟩ |
      ⟨hs, _, f', hnew, hdf1, hdf0⟩
    · subst hsigns
      rcases List.mem_cons.mp hm with hm1 | hm2
      · rw [hs] at hm1; exact absurd hm1.symm (by simp)
      · exact ih hrec hm2
    · subst hsigns
      rcases List.mem_cons.mp hm with hm1 | hm2
      · rw [hs] at hm1; exact absurd hm1.symm (by simp)
      · exact ih hrec hm2
    · exact parse_go_stays_some (hdf1 ▸ hrec)

theorem validate_go_getLast : ∀ {l : List Sign},
    Pattern.validate_go l = .ok () → l ≠ [] →
    l.getLast? = some .MandatoryDigit := by
  intro l
  induction l with
  | nil => intro _ hne; exact absurd rfl hne
  | cons s rest ih =>
    intro h _
    cases rest with
    | nil =>
      cases s with
      | MandatoryDigit => rfl
      | OptionalDigit => unfold Pattern.validate_go at h; simp at h
      | GroupSeparator c => unfold Pattern.validate_go at h; simp at h
    | cons t ts =>
      rw [List.getLast?_cons_cons]
      refine ih ?_ (by simp)
      cases s with
      | OptionalDigit =>
        unfold Pattern.validate_go at h
        cases t <;> simpa using h
      | MandatoryDigit =>
        unfold Pattern.validate_go at h
        exact h
      | GroupSeparator c =>
        unfold Pattern.validate_go at h
        cases t with
        | GroupSeparator c2 => simp at h
        | OptionalDigit => simpa using h
        | MandatoryDigit => simpa using h

theorem validate_ok_go {signs : List Sign}
    (h : Pattern.validate signs = .ok ()) :
    Pattern.validate_go signs = .ok () := by
  unfold Pattern.validate at h
  cases hhead : signs.head? with
  | none => rw [hhead] at h; exact h
  | some s =>
    cases s with
    | GroupSeparator c => rw [hhead] at h; simp at h
    | OptionalDigit => rw [hhead] at h; exact h
    | MandatoryDigit => rw [hhead] at h; exact h

theorem validate_getLast {signs : List Sign}
    (h : Pattern.validate signs = .ok ()) (hne : signs ≠ []) :
    signs.getLast? = some .MandatoryDigit :=
  validate_go_getLast (validate_ok_go h) hne

theorem validate_go_chain : ∀ {l : List Sign},
    Pattern.validate_go l = .ok () →
    l.Chain' (fun a b => ¬(isSep a = true ∧ isSep b = true)) := by
  intro l
  induction l with
  | nil => intro _; exact List.chain'_nil
  | cons s rest ih =>
    intro h
    cases rest with
    | nil => exact List.chain'_singleton s
    | cons t ts =>
      rw [List.chain'_cons]
      cases s with
      | OptionalDigit =>
        unfold Pattern.validate_go at h
        have hrec : Pattern.validate_go (t :: ts) = .ok () := by
          cases t <;> simpa using h
        exact ⟨by simp [isSep], ih hrec⟩
      | MandatoryDigit =>
        unfold Pattern.validate_go at h
        exact ⟨by simp [isSep], ih h⟩
      | GroupSeparator c =>
        unfold Pattern.validate_go at h
        cases t with
        | GroupSeparator c2 => simp at h
        | OptionalDigit =>
          exact ⟨by simp [isSep], ih (by simpa using h)⟩
        | MandatoryDigit =>
          exact ⟨by simp [isSep], ih (by simpa using h)⟩

theorem validate_chain_reverse {signs : List Sign}
    (h : Pattern.validate signs = .ok ()) :
    signs.reverse.Chain' (fun a b => ¬(isSep a = true ∧ isSep b = true)) := by
  rw [List.chain'_reverse]
  exact (validate_go_chain (validate_ok_go h)).imp
    (fun a b hab hba => hab ⟨hba.2, hba.1⟩)

theorem groupLens_head_pos : ∀ (l : List Sign) (cnt : Nat), 1 ≤ cnt →
    ∀ {n0 : Nat} {ns : List Nat}, groupLens l cnt = n0 :: ns → 1 ≤ n0 := by
  intro l
  induction l with
  | nil =>
    intro cnt hcnt n0 ns hg
    simp [groupLens] at hg
  | cons s rest ih =>
    intro cnt hcnt n0 ns hg
    cases s with
    | GroupSeparator c =>
      have hinj : cnt :: groupLens rest 0 = n0 :: ns := hg
      have : cnt = n0 := (List.cons.injEq _ _ _ _ ▸ hinj).1
      omega
    | OptionalDigit =>
      exact ih (cnt + 1) (by omega) (by simpa [groupLens] using hg)
    | MandatoryDigit =>
      exact ih (cnt + 1) (by omega) (by simpa [groupLens] using hg)

theorem pattern_new_ok {pic : String} {pat : Pattern}
    (h : Pattern.new pic = .ok pat) :
    ∃ signs df, Pattern.parse pic = .ok (signs, df) ∧
      Pattern.validate signs = .ok () ∧
      ((∃ r, Pattern.create_regular signs df = some r ∧ pat = .regular r) ∨
       (Pattern.create_regular signs df = none ∧
        pat = .nonRegular (NonRegular.new signs df))) := by
  unfold Pattern.new at h
  cases hp : Pattern.parse pic with
  | error e => rw [hp] at h; exact absurd h (by simp)
  | ok pr =>
    obtain ⟨signs, df⟩ := pr
    rw [hp] at h
    dsimp only [] at h
    cases hv : Pattern.validate signs with
    | error e => rw [hv] at h; simp at h
    | ok u =>
      cases u
      rw [hv] at h
      dsimp only [] at h
      cases hc : Pattern.create_regular signs df with
      | none =>
        rw [hc] at h
        simp only [Except.ok.injEq] at h
        exact ⟨signs, df, rfl, hv, Or.inr ⟨hc, h.symm⟩⟩
      | some r =>
        rw [hc] at h
        simp only [Except.ok.injEq] at h
        exact ⟨signs, df, rfl, hv, Or.inl ⟨r, hc, h.symm⟩⟩

theorem create_regular_some_facts {signs : List Sign}
    {df : Option DigitFamily} {r : Regular}
    (hc : Pattern.create_regular signs df = some r)
    (hv : Pattern.validate signs = .ok ()) :
    1 ≤ r.count ∧ r.mandatory_digit_max = countMandatory signs ∧
      r.digit_family = df := by
  have hne : signs ≠ [] := by
    intro he
    subst he
    exact absurd hc (by simp [Pattern.create_regular,
      Pattern.create_regular_go])
  rw [create_regular_eq_spec] at hc
  unfold createRegularSpec at hc
  cases hs : sepChars signs.reverse with
  | nil => rw [hs] at hc; simp at hc
  | cons c0 cs =>
    cases hl : groupLens signs.reverse 0 with
    | nil => rw [hs, hl] at hc; simp at hc
    | cons n0 ns =>
      rw [hs, hl] at hc
      dsimp only [] at hc
      by_cases hcond : (cs.all (fun c => c == c0) &&
          ns.all (fun n => n == n0)) = true
      · rw [if_pos hcond] at hc
        simp only [Option.some.injEq] at hc
        have hn0 : 1 ≤ n0 := by
          have hlast := validate_getLast hv hne
          have hhead : signs.reverse.head? = some Sign.MandatoryDigit := by
            rw [List.head?_reverse]
            exact hlast
          cases hrev : signs.reverse with
          | nil => rw [hrev] at hhead; simp at hhead
          | cons s0 tail =>
            rw [hrev] at hhead
            simp only [List.head?_cons, Option.some.injEq] at hhead
            rw [hrev, hhead] at hl
            have hl' : groupLens tail 1 = n0 :: ns := by
              simpa [groupLens] using hl
            exact groupLens_head_pos tail 1 (le_refl 1) hl'
        refine ⟨?_, ?_, ?_⟩
        · rw [← hc]; exact hn0
        · rw [← hc]
        · rw [← hc]
      · rw [if_neg hcond] at hc
        simp at hc

/-- A sign source never produces two separator signs in a row: the invariant
behind the termination shape of the generation walk for classified
patterns. -/
def sepThenDigit : SignSource → Prop
  | .nonRegular l => l.Chain' (fun a b => ¬(isSep a = true ∧ isSep b = true))
  | .regular it => 1 ≤ it.grouping_size ∧ it.position ≤ it.grouping_size

theorem sepThenDigit_step {src : SignSource} (h : sepThenDigit src) :
    sepThenDigit (src.next).2 := by
  cases src with
  | nonRegular l =>
    cases l with
    | nil => exact h
    | cons s rest =>
      have h' : List.Chain'
          (fun a b => ¬(isSep a = true ∧ isSep b = true)) (s :: rest) := h
      exact h'.tail
  | regular it =>
    obtain ⟨p, c, g⟩ := it
    obtain ⟨hg, hp⟩ := h
    by_cases hlt : p < g
    · have : (SignSource.next (.regular ⟨p, c, g⟩)).2 =
          .regular ⟨p + 1, c, g⟩ := by
        simp [SignSource.next, RegularIterator.next, hlt]
      rw [this]
      exact ⟨hg, show p + 1 ≤ g by omega⟩
    · have : (SignSource.next (.regular ⟨p, c, g⟩)).2 =
          .regular ⟨0, c, g⟩ := by
        simp [SignSource.next, RegularIterator.next, hlt]
      rw [this]
      exact ⟨hg, Nat.zero_le g⟩

theorem sepThenDigit_sep_next {src : SignSource} (h : sepThenDigit src)
    {c : Char} (hsep : (src.next).1 = .GroupSeparator c) :
    isSep ((src.next).2.next).1 = false := by
  cases src with
  | nonRegular l =>
    cases l with
    | nil => simp [SignSource.next] at hsep
    | cons s rest =>
      have hs : s = .GroupSeparator c := hsep
      subst hs
      show isSep (SignSource.next (.nonRegular rest)).1 = false
      cases rest with
      | nil => rfl
      | cons t ts =>
        have hrel := (List.chain'_cons.mp h).1
        show isSep t = false
        cases t with
        | GroupSeparator c2 => exact absurd ⟨rfl, rfl⟩ hrel
        | OptionalDigit => rfl
        | MandatoryDigit => rfl
  | regular it =>
    obtain ⟨p, c0, g⟩ := it
    obtain ⟨hg, hp⟩ := h
    by_cases hlt : p < g
    · exfalso
      have : (SignSource.next (.regular ⟨p, c0, g⟩)).1 =
          Sign.MandatoryDigit := by
        simp [SignSource.next, RegularIterator.next, hlt]
      rw [this] at hsep
      exact absurd hsep (by simp)
    · have h2 : (SignSource.next (.regular ⟨p, c0, g⟩)).2 =
          .regular ⟨0, c0, g⟩ := by
        simp [SignSource.next, RegularIterator.next, hlt]
      rw [h2]
      have h0 : (0 : Nat) < g := hg
      have : (SignSource.next (.regular ⟨0, c0, g⟩)).1 =
          Sign.MandatoryDigit := by
        simp [SignSource.next, RegularIterator.next, h0]
      rw [this]
      rfl

theorem walk_getLast_digit (df : Option DigitFamily) (fuel : Nat) :
    ∀ (src : SignSource) (digits : List Char), sepThenDigit src →
      2 * digits.length + 2 ≤ fuel →
      ∀ x, (formatWalkGo df fuel src digits).getLast? = some x →
        ∃ d ∈ digits, x = applyFamily df d := by
  induction fuel using Nat.strong_induction_on with
  | _ fuel ih =>
    intro src digits hgood hf x hx
    cases fuel with
    | zero => omega
    | succ f =>
      rcases hnext : src.next with ⟨sign, src'⟩
      have hgood' : sepThenDigit src' := by
        have hstep := sepThenDigit_step hgood
        rwa [hnext] at hstep
      unfold formatWalkGo at hx
      rw [hnext] at hx
      cases sign with
      | OptionalDigit =>
        cases digits with
        | nil => simp at hx
        | cons d rest =>
          dsimp only [] at hx
          cases hW : formatWalkGo df f src' rest with
          | nil =>
            rw [hW] at hx
            simp only [List.getLast?_singleton, Option.some.injEq] at hx
            exact ⟨d, List.mem_cons_self _ _, hx.symm⟩
          | cons w ws =>
            rw [hW, List.getLast?_cons_cons, ← hW] at hx
            obtain ⟨d', hd', hx'⟩ := ih f (by omega) src' rest hgood'
              (by simp only [List.length_cons] at hf; omega) x hx
            exact ⟨d', List.mem_cons_of_mem _ hd', hx'⟩
      | MandatoryDigit =>
        cases digits with
        | nil => simp at hx
        | cons d rest =>
          dsimp only [] at hx
          cases hW : formatWalkGo df f src' rest with
          | nil =>
            rw [hW] at hx
            simp only [List.getLast?_singleton, Option.some.injEq] at hx
            exact ⟨d, List.mem_cons_self _ _, hx.symm⟩
          | cons w ws =>
            rw [hW, List.getLast?_cons_cons, ← hW] at hx
            obtain ⟨d', hd', hx'⟩ := ih f (by omega) src' rest hgood'
              (by simp only [List.length_cons] at hf; omega) x hx
            exact ⟨d', List.mem_cons_of_mem _ hd', hx'⟩
      | GroupSeparator c =>
        cases digits with
        | nil => simp at hx
        | cons d rest =>
          dsimp only [] at hx
          cases f with
          | zero => simp only [List.length_cons] at hf; omega
          | succ f' =>
            rcases hnext2 : src'.next with ⟨sign2, src''⟩
            have hgood'' : sepThenDigit src'' := by
              have hstep := sepThenDigit_step hgood'
              rwa [hnext2] at hstep
            have hdig : isSep sign2 = false := by
              have hsn := sepThenDigit_sep_next hgood
                (show (src.next).1 = .GroupSeparator c by rw [hnext])
              rw [hnext] at hsn
              dsimp only [] at hsn
              rw [hnext2] at hsn
              exact hsn
            unfold formatWalkGo at hx
            rw [hnext2] at hx
            cases sign2 with
            | GroupSeparator c2 => simp [isSep] at hdig
            | OptionalDigit =>
              dsimp only [] at hx
              rw [List.getLast?_cons_cons] at hx
              cases hW : formatWalkGo df f' src'' rest with
              | nil =>
                rw [hW] at hx
                simp only [List.getLast?_singleton, Option.some.injEq] at hx
                exact ⟨d, List.mem_cons_self _ _, hx.symm⟩
              | cons w ws =>
                rw [hW, List.getLast?_cons_cons, ← hW] at hx
                obtain ⟨d', hd', hx'⟩ := ih f' (by omega) src'' rest hgood''
                  (by simp only [List.length_cons] at hf; omega) x hx
                exact ⟨d', List.mem_cons_of_mem _ hd', hx'⟩
            | MandatoryDigit =>
              dsimp only [] at hx
              rw [List.getLast?_cons_cons] at hx
              cases hW : formatWalkGo df f' src'' rest with
              | nil =>
                rw [hW] at hx
                simp only [List.getLast?_singleton, Option.some.injEq] at hx
                exact ⟨d, List.mem_cons_self _ _, hx.symm⟩
              | cons w ws =>
                rw [hW, List.getLast?_cons_cons, ← hW] at hx
                obtain ⟨d', hd', hx'⟩ := ih f' (by omega) src'' rest hgood''
                  (by simp only [List.length_cons] at hf; omega) x hx
                exact ⟨d', List.mem_cons_of_mem _ hd', hx'⟩

theorem picture_parse_ok {pic : String} {p : Picture}
    (h : Picture.parse pic = .ok p) : Pattern.new pic = .ok p.pattern := by
  unfold Picture.parse at h
  cases hn : Pattern.new pic with
  | error e => rw [hn] at h; exact absurd h (by simp)
  | ok pat =>
    rw [hn] at h
    simp only [Except.ok.injEq] at h
    rw [← h]

theorem pattern_new_sepThenDigit {pic : String} {pat : Pattern}
    (h : Pattern.new pic = .ok pat) : sepThenDigit pat.signsSource := by
  obtain ⟨signs, df, hp, hv, hcase⟩ := pattern_new_ok h
  rcases hcase with ⟨r, hc, rfl⟩ | ⟨hc, rfl⟩
  · obtain ⟨hcount, -, -⟩ := create_regular_some_facts hc hv
    exact ⟨hcount, Nat.zero_le _⟩
  · exact validate_chain_reverse hv

theorem pattern_new_family {pic : String} {pat : Pattern}
    (h : Pattern.new pic = .ok pat) :
    pat.digit_family = none ∨
      ∃ f, pat.digit_family = some f ∧
        ∃ r ∈ decimalRanges, f.zero.toNat = r.1 := by
  obtain ⟨signs, df, hp, hv, hcase⟩ := pattern_new_ok h
  have hdf : pat.digit_family = df := by
    rcases hcase with ⟨r, hc, rfl⟩ | ⟨hc, rfl⟩
    · exact (create_regular_some_facts hc hv).2.2
    · rfl
  rw [hdf]
  rcases parse_go_family hp with hnone | ⟨c, f', hnew, hsome⟩
  · exact Or.inl hnone
  · exact Or.inr ⟨f', hsome, digitFamily_new_zero hnew⟩

theorem format_head_not_sep (p : Picture) (i : Int)
    (hgood : sepThenDigit p.pattern.signsSource)
    (hfam : p.pattern.digit_family = none ∨
      ∃ f, p.pattern.digit_family = some f ∧
        ∃ r ∈ decimalRanges, f.zero.toNat = r.1)
    (c0 : Char)
    (hc0 : ((Picture.format p i).data.drop (if i < 0 then 1 else 0)).head?
      = some c0) :
    is_group_separator c0 = false := by
  have hdata : (Picture.format p i).data =
      ((if i < 0 then ['-'] else []) : List Char) ++
      (formatWalkGo p.pattern.digit_family
        (2 * ((toDecimalChars i.natAbs).reverse ++
          List.replicate (p.pattern.mandatory_digit_max -
            (toDecimalChars i.natAbs).length) '0').length + 2)
        p.pattern.signsSource
        ((toDecimalChars i.natAbs).reverse ++
          List.replicate (p.pattern.mandatory_digit_max -
            (toDecimalChars i.natAbs).length) '0')).reverse := by
    show ((formatWalkGo p.pattern.digit_family _ p.pattern.signsSource _ ++
      (if i < 0 then ['-'] else [])).reverse : List Char) = _
    rw [List.reverse_append]
    congr 1
    by_cases hneg : i < 0 <;> simp [hneg]
  rw [hdata] at hc0
  have hc0' : ((formatWalkGo p.pattern.digit_family
      (2 * ((toDecimalChars i.natAbs).reverse ++
        List.replicate (p.pattern.mandatory_digit_max -
          (toDecimalChars i.natAbs).length) '0').length + 2)
      p.pattern.signsSource
      ((toDecimalChars i.natAbs).reverse ++
        List.replicate (p.pattern.mandatory_digit_max -
          (toDecimalChars i.natAbs).length) '0')).reverse).head?
      = some c0 := by
    by_cases hneg : i < 0
    · simp only [hneg, if_true] at hc0
      simpa using hc0
    · simp only [hneg, if_false] at hc0
      simpa using hc0
  rw [List.head?_reverse] at hc0'
  obtain ⟨d, hd, hc0eq⟩ := walk_getLast_digit p.pattern.digit_family _
    p.pattern.signsSource _ hgood (le_refl _) c0 hc0'
  have hdascii : 48 ≤ d.toNat ∧ d.toNat ≤ 57 := by
    rcases List.mem_append.mp hd with hmem | hmem
    · exact mem_toDecimalChars d (List.mem_reverse.mp hmem)
    · rw [List.eq_of_mem_replicate hmem]
      exact ⟨by decide, by decide⟩
  subst hc0eq
  rcases hfam with hnone | ⟨f, hsome, hz⟩
  · rw [hnone]
    exact is_group_separator_of_isDecimal
      (ascii_isDecimal hdascii.1 hdascii.2)
  · rw [hsome]
    exact is_group_separator_of_isDecimal
      (family_digit_isDecimal hz hdascii.1 hdascii.2)

/-- C7: during formatting, a `GroupSeparator` sign met when the digit stream
is exhausted stops generation without emitting the separator; consequently,
for every accepted picture and every integer, the formatted output — beyond
the leading `'-'` of a negative value — begins with a digit character of the
output family, never with a group-separator character. -/
theorem c7_no_leading_separator (pic : String) (i : Int) (s : String)
    (h : format_integer i pic = .ok s) (c0 : Char)
    (hc0 : (s.data.drop (if i < 0 then 1 else 0)).head? = some c0) :
    is_group_separator c0 = false := by
  unfold format_integer at h
  cases hp : Picture.parse pic with
  | error e => rw [hp] at h; exact absurd h (by simp)
  | ok p =>
    rw [hp] at h
    simp only [Except.ok.injEq] at h
    subst h
    have hnew := picture_parse_ok hp
    exact format_head_not_sep p i (pattern_new_sepThenDigit hnew)
      (pattern_new_family hnew) c0 hc0

/-- Witness for C7 at picture `"0,0"` and `i = -5`: the output is `"-0,5"`,
whose first character past the minus sign is the digit `'0'`, not a
separator. -/
theorem c7_no_leading_separator_witness :
    format_integer (-5) ("0,0") = .ok ("-0,5") ∧
    ((("-0,5" : String).data.drop (if (-5 : Int) < 0 then 1 else 0)).head?
      = some '0') ∧
    is_group_separator '0' = false :=
  ⟨rfl, rfl,
    c7_no_leading_separator ("0,0") (-5) ("-0,5") (by rfl) '0' (by rfl)⟩

theorem format_data_eq (p : Picture) (i : Int) :
    (Picture.format p i).data =
      ((if i < 0 then ['-'] else []) : List Char) ++
      (formatWalkGo p.pattern.digit_family
        (2 * ((toDecimalChars i.natAbs).reverse ++
          List.replicate (p.pattern.mandatory_digit_max -
            (toDecimalChars i.natAbs).length) '0').length + 2)
        p.pattern.signsSource
        ((toDecimalChars i.natAbs).reverse ++
          List.replicate (p.pattern.mandatory_digit_max -
            (toDecimalChars i.natAbs).length) '0')).reverse := by
  show ((formatWalkGo p.pattern.digit_family _ p.pattern.signsSource _ ++
    (if i < 0 then ['-'] else [])).reverse : List Char) = _
  rw [List.reverse_append]
  congr 1
  by_cases hneg : i < 0 <;> simp [hneg]

theorem formatWalkGo_ne_nil (df : Option DigitFamily) (f : Nat)
    (src : SignSource) (d : Char) (rest : List Char) :
    formatWalkGo df (f + 1) src (d :: rest) ≠ [] := by
  rcases hnext : src.next with ⟨sign, src'⟩
  unfold formatWalkGo
  rw [hnext]
  cases sign <;> simp

/-- C10: every non-empty picture accepted by `Picture::parse` has
`MandatoryDigit` as the final sign of its parsed sign sequence; hence
`mandatory_digit_max ≥ 1`, a digit family is always detected, and the
formatted output of any integer, including `0`, contains at least one digit
character. -/
theorem c10_nonempty_picture_invariants (pic : String) (hne : pic ≠ "")
    (p : Picture) (h : Picture.parse pic = .ok p) :
    (∃ signs df, Pattern.parse pic = .ok (signs, df) ∧
      signs.getLast? = some Sign.MandatoryDigit) ∧
    1 ≤ p.pattern.mandatory_digit_max ∧
    p.pattern.digit_family.isSome = true ∧
    ∀ i : Int, ∃ c ∈ (p.format i).data, isDecimalChar c = true := by
  have hnew := picture_parse_ok h
  obtain ⟨signs, df, hp, hv, hcase⟩ := pattern_new_ok hnew
  have hdne : pic.data ≠ [] := by
    intro hd
    apply hne
    cases pic
    simp_all
  have hsne : signs ≠ [] := by
    cases hdata : pic.data with
    | nil => exact absurd hdata hdne
    | cons c rest =>
      have hp' : Pattern.parse_go (c :: rest) false none =
          .ok (signs, df) := by
        rw [← hdata]
        exact hp
      obtain ⟨s, signs', ms', df1, -, hsigns, -⟩ := parse_go_cons_ok hp'
      rw [hsigns]
      simp
  have hlast := validate_getLast hv hsne
  have hm : Sign.MandatoryDigit ∈ signs := mem_of_getLast?_eq_some hlast
  have hcm : 1 ≤ countMandatory signs := by
    have hmem : Sign.MandatoryDigit ∈ signs.filter (fun s => match s with
        | .MandatoryDigit => true
        | _ => false) := List.mem_filter.mpr ⟨hm, rfl⟩
    exact List.length_pos.mpr (List.ne_nil_of_mem hmem)
  have hdfsome : ∃ g, df = some g := parse_go_mandatory_some hp hm
  have hpdf : p.pattern.digit_family = df := by
    rcases hcase with ⟨r, hc, hpat⟩ | ⟨hc, hpat⟩
    · rw [hpat]
      exact (create_regular_some_facts hc hv).2.2
    · rw [hpat]
      rfl
  have hpm : p.pattern.mandatory_digit_max = countMandatory signs := by
    rcases hcase with ⟨r, hc, hpat⟩ | ⟨hc, hpat⟩
    · rw [hpat]
      exact (create_regular_some_facts hc hv).2.1
    · rw [hpat]
      rfl
  refine ⟨⟨signs, df, hp, hlast⟩, by rw [hpm]; exact hcm, ?_, ?_⟩
  · obtain ⟨g, hg⟩ := hdfsome
    rw [hpdf, hg]
    rfl
  · intro i
    have hgood := pattern_new_sepThenDigit hnew
    have hfam := pattern_new_family hnew
    have hs0ne : toDecimalChars i.natAbs ≠ [] := toDecimalChars_ne_nil _
    obtain ⟨d0, rest0, hD0⟩ : ∃ d0 rest0,
        (toDecimalChars i.natAbs).reverse ++
          List.replicate (p.pattern.mandatory_digit_max -
            (toDecimalChars i.natAbs).length) '0' = d0 :: rest0 := by
      cases hDD : (toDecimalChars i.natAbs).reverse ++
          List.replicate (p.pattern.mandatory_digit_max -
            (toDecimalChars i.natAbs).length) '0' with
      | nil =>
        have := List.append_eq_nil.mp hDD
        exact absurd (by simpa using this.1) hs0ne
      | cons a b => exact ⟨a, b, rfl⟩
    have hwne : formatWalkGo p.pattern.digit_family
        (2 * ((toDecimalChars i.natAbs).reverse ++
          List.replicate (p.pattern.mandatory_digit_max -
            (toDecimalChars i.natAbs).length) '0').length + 2)
        p.pattern.signsSource
        ((toDecimalChars i.natAbs).reverse ++
          List.replicate (p.pattern.mandatory_digit_max -
            (toDecimalChars i.natAbs).length) '0') ≠ [] := by
      rw [hD0]
      exact formatWalkGo_ne_nil _ _ _ _ _
    obtain ⟨x, hx⟩ := Option.isSome_iff_exists.mp
      (List.getLast?_isSome.mpr hwne)
    obtain ⟨d, hd, hxeq⟩ := walk_getLast_digit p.pattern.digit_family _
      p.pattern.signsSource _ hgood (le_refl _) x hx
    have hdascii : 48 ≤ d.toNat ∧ d.toNat ≤ 57 := by
      rcases List.mem_append.mp hd with hmem | hmem
      · exact mem_toDecimalChars d (List.mem_reverse.mp hmem)
      · rw [List.eq_of_mem_replicate hmem]
        exact ⟨by decide, by decide⟩
    have hxdec : isDecimalChar x = true := by
      subst hxeq
      rcases hfam with hnone | ⟨f, hsome, hz⟩
      · rw [hnone]
        exact ascii_isDecimal hdascii.1 hdascii.2
      · rw [hsome]
        exact family_digit_isDecimal hz hdascii.1 hdascii.2
    refine ⟨x, ?_, hxdec⟩
    rw [format_data_eq]
    exact List.mem_append.mpr (Or.inr
      (List.mem_reverse.mpr (mem_of_getLast?_eq_some hx)))

/-- Witness for C10 at picture `"0"` (which parses to the `NonRegular`
pattern with one mandatory digit and the ASCII family). -/
theorem c10_nonempty_picture_invariants_witness :
    (("0" : String) ≠ "") ∧
    Picture.parse ("0") =
      .ok ⟨.nonRegular ⟨[Sign.MandatoryDigit], 1, some ⟨'0'⟩⟩⟩ ∧
    ((∃ signs df, Pattern.parse ("0") = .ok (signs, df) ∧
        signs.getLast? = some Sign.MandatoryDigit) ∧
      1 ≤ (Picture.mk (.nonRegular
        ⟨[Sign.MandatoryDigit], 1,
          some ⟨'0'⟩⟩)).pattern.mandatory_digit_max ∧
      (Picture.mk (.nonRegular
        ⟨[Sign.MandatoryDigit], 1,
          some ⟨'0'⟩⟩)).pattern.digit_family.isSome = true ∧
      ∀ i : Int, ∃ c ∈ ((Picture.mk (.nonRegular
        ⟨[Sign.MandatoryDigit], 1, some ⟨'0'⟩⟩)).format i).data,
        isDecimalChar c = true) :=
  ⟨by decide, by rfl,
    c10_nonempty_picture_invariants ("0") (by decide)
      ⟨.nonRegular ⟨[Sign.MandatoryDigit], 1, some ⟨'0'⟩⟩⟩ (by rfl)⟩
